import Mathlib

/-!
Verification of the roulette-wheel selection container.

The repository contains two implementations of a fitness-proportionate
selection container:

* a Vec-based one (src/lib.rs): a structure holding a running
  total_fitness, a vector of fitnesses and a parallel vector of
  individuals, with a borrowing draw session (SelectIter) and a consuming
  draw iterator (IntoSelectIter);
* a VecDeque-based one (src/roulette_wheel.rs): a structure holding a
  running proba_sum and a deque of (probability, data) cards, with
  get_random_index / pop / pop_iter.

The embedding below models float32 weights as exact rationals.  The
float-specific checks of the source (is_finite, is_infinite) are modelled
by comparison with the largest finite float32 value, f32Max = 2^128 -
2^104: an exact sum whose magnitude exceeds that bound is treated as
non-finite, which is what happens to the rounded float32 sum.  Rounding
inside the finite range is not modelled.  Randomness is injected as an
explicit rational sample u with 0 <= u < 1; the source call
gen_range(0, sum) is modelled as u * sum, and the [0,1) distribution
sample of the iterators is modelled as u itself.  A Rust panic (a failed
assert, an unwrap of None, or an out-of-bounds index) is modelled by an
explicit result constructor carrying the state reached at the panic.
-/

/-- Largest finite float32 value, (2 - 2^-23) * 2^127 = 2^128 - 2^104. -/
def f32Max : ℚ := 2 ^ 128 - 2 ^ 104

/-- Model of f32::is_finite on the exact rational value. -/
def isFiniteF (q : ℚ) : Bool :=
  decide (-f32Max ≤ q) && decide (q ≤ f32Max)

/-- Model of f32::is_infinite on the exact rational value. -/
def isInfiniteF (q : ℚ) : Bool :=
  decide (f32Max < |q|)

/-- Result of a mutating operation that can panic; both constructors carry
the state of the container when the operation stopped (for a panic, the
state visible at the failed assert). -/
inductive PResult (σ : Type) : Type where
  | ok : σ → PResult σ
  | panicked : σ → PResult σ
deriving DecidableEq

/-- Result of one iterator step: an item together with the successor
state, exhaustion (the Rust iterator returned None), or a panic. -/
inductive Step (ι σ : Type) : Type where
  | yield : ι → σ → Step ι σ
  | done : Step ι σ
  | panicked : Step ι σ
deriving DecidableEq

/-- The cumulative-subtraction scan shared by all draw paths: walk the
weight list keeping a running target, subtracting each weight, and return
the position of the first element at which the target becomes <= 0
(Iterator::position of the closure in SelectIter::next and
IntoSelectIter::next, and the for loop of get_random_index). -/
def scanSelect : ℚ → List ℚ → Option ℕ
  | _, [] => none
  | t, w :: ws =>
    if t - w ≤ 0 then some 0 else (scanSelect (t - w) ws).map (· + 1)

/-- Model of Vec::swap_remove at index i: overwrite position i with the
last element and drop the last position.  On the empty list (unreachable
at the call sites, which always pass a valid index) it is the identity. -/
def swapRemove (xs : List α) (i : ℕ) : List α :=
  match xs.getLast? with
  | none => xs
  | some a => (xs.set i a).dropLast

namespace Lib

/-- The Vec-based container of src/lib.rs. -/
structure RouletteWheel (T : Type) where
  total_fitness : ℚ
  fitnesses : List ℚ
  population : List T
deriving DecidableEq

/-- RouletteWheel::new. -/
def new {T : Type} : RouletteWheel T :=
  { total_fitness := 0, fitnesses := [], population := [] }

/-- RouletteWheel::len. -/
def len {T : Type} (s : RouletteWheel T) : ℕ :=
  s.population.length

/-- RouletteWheel::clear: clears both vectors; the source does not touch
total_fitness. -/
def clear {T : Type} (s : RouletteWheel T) : RouletteWheel T :=
  { s with fitnesses := [], population := [] }

/-- RouletteWheel::unchecked_push. -/
def unchecked_push {T : Type} (fitness : ℚ) (individual : T)
    (s : RouletteWheel T) : RouletteWheel T :=
  { total_fitness := s.total_fitness + fitness
    fitnesses := s.fitnesses ++ [fitness]
    population := s.population ++ [individual] }

/-- RouletteWheel::push: asserts fitness >= 0 and that the new total is
finite, then delegates to unchecked_push.  Both asserts run before any
mutation. -/
def push {T : Type} (fitness : ℚ) (individual : T)
    (s : RouletteWheel T) : PResult (RouletteWheel T) :=
  if 0 ≤ fitness then
    if isFiniteF (s.total_fitness + fitness) then
      .ok (unchecked_push fitness individual s)
    else .panicked s
  else .panicked s

/-- FromIterator for RouletteWheel: fold over the pairs accumulating the
total and pushing into both vectors, starting from zero/empty.  No
validation is performed. -/
def from_iter {T : Type} (pairs : List (ℚ × T)) : RouletteWheel T :=
  pairs.foldl
    (fun s p =>
      { total_fitness := s.total_fitness + p.1
        fitnesses := s.fitnesses ++ [p.1]
        population := s.population ++ [p.2] })
    new

/-- Sequential insertion of a list of pairs via push, stopping at the
first panic (used to compare bulk construction with repeated insert). -/
def pushAll {T : Type} : List (ℚ × T) → RouletteWheel T →
    PResult (RouletteWheel T)
  | [], s => .ok s
  | p :: ps, s =>
    match push p.1 p.2 s with
    | .ok s' => pushAll ps s'
    | .panicked s' => .panicked s'

/-- The borrowing draw session of src/lib.rs: a working total, a working
vector of (original index, fitness) pairs, and the borrowed wheel. -/
structure SelectIter (T : Type) where
  total_fitness : ℚ
  fitnesses_ids : List (ℕ × ℚ)
  roulette_wheel : RouletteWheel T
deriving DecidableEq

/-- SelectIter::from_rng: copy the wheel total and the enumerated
fitnesses into session-local state. -/
def SelectIter.from_rng {T : Type} (rw : RouletteWheel T) : SelectIter T :=
  { total_fitness := rw.total_fitness
    fitnesses_ids := rw.fitnesses.enum
    roulette_wheel := rw }

/-- SelectIter::next with injected sample u: if the working vector is
nonempty, scan it by cumulative subtraction of u * working total; the
source unwraps the scan result (panic when the scan exhausts), swap
removes the chosen slot, decrements the working total and yields the
fitness with the population entry at the remembered original index
(Rust indexing: panic when out of bounds). -/
def SelectIter.next {T : Type} (u : ℚ) (s : SelectIter T) :
    Step (ℚ × T) (SelectIter T) :=
  if s.fitnesses_ids = [] then .done
  else
    match scanSelect (u * s.total_fitness) (s.fitnesses_ids.map Prod.snd) with
    | none => .panicked
    | some index =>
      match s.fitnesses_ids.get? index with
      | none => .panicked
      | some (origIdx, fitness) =>
        match s.roulette_wheel.population.get? origIdx with
        | none => .panicked
        | some v =>
          .yield (fitness, v)
            { total_fitness := s.total_fitness - fitness
              fitnesses_ids := swapRemove s.fitnesses_ids index
              roulette_wheel := s.roulette_wheel }

/-- Run a borrowing draw session for a given number of steps (enough fuel
runs it to exhaustion), feeding samples from the stream us; stops early
at exhaustion or panic. -/
def selectDrain {T : Type} (us : ℕ → ℚ) : ℕ → SelectIter T → SelectIter T
  | 0, s => s
  | n + 1, s =>
    match SelectIter.next (us 0) s with
    | .yield _ s' => selectDrain (fun i => us (i + 1)) n s'
    | _ => s

/-- The consuming draw iterator of src/lib.rs: it owns the wheel fields. -/
structure IntoSelectIter (T : Type) where
  total_fitness : ℚ
  fitnesses : List ℚ
  population : List T
deriving DecidableEq

/-- IntoSelectIter::from_rng: move the wheel fields into the iterator. -/
def IntoSelectIter.from_rng {T : Type} (rw : RouletteWheel T) :
    IntoSelectIter T :=
  { total_fitness := rw.total_fitness
    fitnesses := rw.fitnesses
    population := rw.population }

/-- IntoSelectIter::next with injected sample u: None only when the
fitness vector is empty; otherwise scan by cumulative subtraction of
u * total (unwrap panics when the scan exhausts), swap remove the chosen
index from both vectors and decrement the total. -/
def IntoSelectIter.next {T : Type} (u : ℚ) (s : IntoSelectIter T) :
    Step (ℚ × T) (IntoSelectIter T) :=
  if s.fitnesses = [] then .done
  else
    match scanSelect (u * s.total_fitness) s.fitnesses with
    | none => .panicked
    | some index =>
      match s.fitnesses.get? index, s.population.get? index with
      | some fitness, some v =>
        .yield (fitness, v)
          { total_fitness := s.total_fitness - fitness
            fitnesses := swapRemove s.fitnesses index
            population := swapRemove s.population index }
      | _, _ => .panicked

/-- Run the consuming iterator for a given number of steps, feeding
samples from the stream us; stops early at exhaustion or panic. -/
def intoDrain {T : Type} (us : ℕ → ℚ) : ℕ → IntoSelectIter T →
    IntoSelectIter T
  | 0, s => s
  | n + 1, s =>
    match IntoSelectIter.next (us 0) s with
    | .yield _ s' => intoDrain (fun i => us (i + 1)) n s'
    | _ => s

end Lib

namespace Deque

/-- The VecDeque-based container of src/roulette_wheel.rs. -/
structure RouletteWheel (T : Type) where
  proba_sum : ℚ
  cards : List (ℚ × T)
deriving DecidableEq

/-- RouletteWheel::new. -/
def new {T : Type} : RouletteWheel T :=
  { proba_sum := 0, cards := [] }

/-- RouletteWheel::len. -/
def len {T : Type} (s : RouletteWheel T) : ℕ :=
  s.cards.length

/-- RouletteWheel::is_empty. -/
def is_empty {T : Type} (s : RouletteWheel T) : Bool :=
  decide (len s = 0)

/-- RouletteWheel::clear: clears the deque; the source does not touch
proba_sum. -/
def clear {T : Type} (s : RouletteWheel T) : RouletteWheel T :=
  { s with cards := [] }

/-- RouletteWheel::push: asserts proba >= 0 (before any mutation), then
appends the card, then adds to proba_sum, then asserts that the sum has
not become infinite — so the overflow panic happens after the state was
mutated. -/
def push {T : Type} (proba : ℚ) (data : T) (s : RouletteWheel T) :
    PResult (RouletteWheel T) :=
  if 0 ≤ proba then
    let s' : RouletteWheel T :=
      { proba_sum := s.proba_sum + proba, cards := s.cards ++ [(proba, data)] }
    if isInfiniteF s'.proba_sum then .panicked s' else .ok s'
  else .panicked s

/-- Sequential insertion of a list of cards via push, stopping at the
first panic. -/
def pushAll {T : Type} : List (ℚ × T) → RouletteWheel T →
    PResult (RouletteWheel T)
  | [], s => .ok s
  | c :: cs, s =>
    match push c.1 c.2 s with
    | .ok s' => pushAll cs s'
    | .panicked s' => .panicked s'

/-- From<&[(f32, T)]>: assert every probability is nonnegative, fold the
sum, assert the sum is strictly positive, and build the wheel from the
whole slice.  A failed assert (modelled as none) happens before any wheel
exists. -/
def fromSlice {T : Type} (s : List (ℚ × T)) : Option (RouletteWheel T) :=
  if s.all (fun c => decide (0 ≤ c.1)) then
    let proba_sum := s.foldl (fun acc c => acc + c.1) 0
    if 0 < proba_sum then some { proba_sum := proba_sum, cards := s }
    else none
  else none

/-- Loop body of update_proba_sum: the sum was already reset; accumulate
card by card, panicking at the first negative probability (leaving the
partially accumulated sum in place), and finally assert the accumulated
sum is not infinite. -/
def updateGo {T : Type} (s : RouletteWheel T) (acc : ℚ) :
    List (ℚ × T) → PResult (RouletteWheel T)
  | [] =>
    if isInfiniteF acc then .panicked { s with proba_sum := acc }
    else .ok { s with proba_sum := acc }
  | c :: cs =>
    if 0 ≤ c.1 then updateGo s (acc + c.1) cs
    else .panicked { s with proba_sum := acc }

/-- RouletteWheel::update_proba_sum: reset proba_sum to 0 and rescan all
cards, asserting each probability nonnegative as it is added. -/
def update_proba_sum {T : Type} (s : RouletteWheel T) :
    PResult (RouletteWheel T) :=
  updateGo s 0 s.cards

/-- RouletteWheel::gen_random_dist with injected sample u: a value in
[0, proba_sum) when the sum is positive (gen_range(0, sum) modelled as
u * sum), otherwise 0. -/
def gen_random_dist {T : Type} (u : ℚ) (s : RouletteWheel T) : ℚ :=
  if 0 < s.proba_sum then u * s.proba_sum else 0

/-- RouletteWheel::get_random_index with injected sample u: None when the
wheel is empty or the sum is not positive; otherwise the cumulative
subtraction scan over the cards (None again if the scan exhausts). -/
def get_random_index {T : Type} (u : ℚ) (s : RouletteWheel T) : Option ℕ :=
  if is_empty s = false ∧ 0 < s.proba_sum then
    scanSelect (gen_random_dist u s) (s.cards.map Prod.fst)
  else none

/-- RouletteWheel::pop with injected sample u: draw an index, remove that
card (VecDeque::remove preserves the order of the rest) and subtract its
probability from the sum; None leaves the wheel untouched. -/
def pop {T : Type} (u : ℚ) (s : RouletteWheel T) :
    Option (ℚ × T) × RouletteWheel T :=
  match get_random_index u s with
  | some index =>
    match s.cards.get? index with
    | some c =>
      (some c,
        { proba_sum := s.proba_sum - c.1, cards := s.cards.eraseIdx index })
    | none => (none, s)
  | none => (none, s)

/-- Run pop_iter for a given number of steps, feeding samples from the
stream us; stops at the first None (the iterator is exhausted). -/
def popDrain {T : Type} (us : ℕ → ℚ) : ℕ → RouletteWheel T →
    RouletteWheel T
  | 0, s => s
  | n + 1, s =>
    match pop (us 0) s with
    | (some _, s') => popDrain (fun i => us (i + 1)) n s'
    | (none, s') => s'

end Deque

section ScanLemmas

/-- The index returned by the cumulative-subtraction scan is in range. -/
theorem scanSelect_lt_length {t : ℚ} {ws : List ℚ} {i : ℕ}
    (h : scanSelect t ws = some i) : i < ws.length := by
  induction ws generalizing t i with
  | nil => simp [scanSelect] at h
  | cons w ws ih =>
    rw [scanSelect] at h
    by_cases hw : t - w ≤ 0
    · rw [if_pos hw] at h
      obtain rfl : (0 : ℕ) = i := by simpa using h
      simp
    · rw [if_neg hw, Option.map_eq_some'] at h
      obtain ⟨j, hj, rfl⟩ := h
      have := ih hj
      simp only [List.length_cons]
      omega

/-- The scan succeeds whenever the target does not exceed the sum of the
weights and the list is nonempty. -/
theorem scanSelect_isSome : ∀ (ws : List ℚ) (t : ℚ), ws ≠ [] →
    t ≤ ws.sum → (scanSelect t ws).isSome := by
  intro ws
  induction ws with
  | nil => intro t h _; exact absurd rfl h
  | cons w ws ih =>
    intro t _ hle
    rw [scanSelect]
    by_cases hw : t - w ≤ 0
    · rw [if_pos hw]; rfl
    · rw [if_neg hw]
      cases ws with
      | nil =>
        exfalso
        rw [List.sum_cons, List.sum_nil] at hle
        exact hw (by linarith)
      | cons w' ws' =>
        have h2 : (scanSelect (t - w) (w' :: ws')).isSome := by
          apply ih _ (by simp)
          rw [List.sum_cons] at hle
          linarith
        obtain ⟨j, hj⟩ := Option.isSome_iff_exists.mp h2
        simp [hj]

/-- Characterization of the scan: it returns index i exactly when i is
the first position whose cumulative weight reaches the target. -/
theorem scanSelect_eq_some_iff : ∀ (ws : List ℚ) (t : ℚ) (i : ℕ),
    scanSelect t ws = some i ↔
      (i < ws.length ∧ t ≤ ((ws.take (i + 1)).sum) ∧
        ∀ j, j < i → ((ws.take (j + 1)).sum) < t) := by
  intro ws
  induction ws with
  | nil => intro t i; simp [scanSelect]
  | cons w ws ih =>
    intro t i
    rw [scanSelect]
    by_cases hw : t - w ≤ 0
    · rw [if_pos hw]
      constructor
      · intro h
        obtain rfl : (0 : ℕ) = i := by simpa using h
        refine ⟨by simp, ?_, by intro j hj; omega⟩
        rw [List.take_succ_cons, List.take_zero]
        simp
        linarith
      · rintro ⟨hlen, hle, hfirst⟩
        cases i with
        | zero => rfl
        | succ i =>
          exfalso
          have h0 := hfirst 0 (Nat.succ_pos _)
          rw [List.take_succ_cons, List.take_zero] at h0
          simp at h0
          linarith
    · rw [if_neg hw, Option.map_eq_some']
      constructor
      · rintro ⟨j, hj, rfl⟩
        obtain ⟨hlen, hle, hfirst⟩ := (ih (t - w) j).mp hj
        refine ⟨by simp only [List.length_cons]; omega, ?_, ?_⟩
        · rw [List.take_succ_cons, List.sum_cons]
          linarith
        · intro k hk
          cases k with
          | zero =>
            rw [List.take_succ_cons, List.take_zero]
            simp
            linarith
          | succ k =>
            have := hfirst k (by omega)
            rw [List.take_succ_cons, List.sum_cons]
            linarith
      · rintro ⟨hlen, hle, hfirst⟩
        cases i with
        | zero =>
          exfalso
          rw [List.take_succ_cons, List.take_zero] at hle
          simp at hle
          exact hw (by linarith)
        | succ i =>
          refine ⟨i, (ih (t - w) i).mpr ⟨?_, ?_, ?_⟩, rfl⟩
          · simpa using hlen
          · rw [List.take_succ_cons, List.sum_cons] at hle
            linarith
          · intro j hj
            have := hfirst (j + 1) (by omega)
            rw [List.take_succ_cons, List.sum_cons] at this
            linarith

end ScanLemmas

section ListSurgery

/-- dropLast commutes with zip. -/
theorem dropLast_zip {α β : Type} : ∀ (xs : List α) (ys : List β),
    (xs.zip ys).dropLast = xs.dropLast.zip ys.dropLast := by
  intro xs
  induction xs with
  | nil => intro ys; simp
  | cons x xs ih =>
    intro ys
    cases ys with
    | nil => simp
    | cons y ys =>
      cases xs with
      | nil => cases ys <;> simp
      | cons x' xs' =>
        cases ys with
        | nil => simp
        | cons y' ys' =>
          simp only [List.zip_cons_cons, List.dropLast_cons₂]
          congr 1
          rw [← List.zip_cons_cons]
          exact ih (y' :: ys')

/-- set commutes with zip. -/
theorem zip_set {α β : Type} : ∀ (xs : List α) (ys : List β) (i : ℕ)
    (a : α) (b : β),
    (xs.set i a).zip (ys.set i b) = (xs.zip ys).set i (a, b) := by
  intro xs
  induction xs with
  | nil => intro ys i a b; simp
  | cons x xs ih =>
    intro ys i a b
    cases ys with
    | nil => simp
    | cons y ys =>
      cases i with
      | zero =>
        rw [List.set_cons_zero, List.set_cons_zero, List.zip_cons_cons,
          List.zip_cons_cons, List.set_cons_zero]
      | succ i =>
        rw [List.set_cons_succ, List.set_cons_succ, List.zip_cons_cons,
          List.zip_cons_cons, List.set_cons_succ, ih]

/-- getLast? of a zip of equal-length nonempty lists. -/
theorem zip_getLast? {α β : Type} : ∀ (xs : List α) (ys : List β) (a : α)
    (b : β), xs.length = ys.length → xs.getLast? = some a →
    ys.getLast? = some b → (xs.zip ys).getLast? = some (a, b) := by
  intro xs
  induction xs with
  | nil => intro ys a b _ hx _; simp at hx
  | cons x xs ih =>
    intro ys a b hlen hx hy
    cases ys with
    | nil => simp at hlen
    | cons y ys =>
      cases xs with
      | nil =>
        cases ys with
        | nil =>
          simp at hx hy
          subst hx; subst hy
          simp
        | cons y' ys' => simp at hlen
      | cons x' xs' =>
        cases ys with
        | nil => simp at hlen
        | cons y' ys' =>
          rw [List.getLast?_cons_cons] at hx hy
          rw [List.zip_cons_cons, List.zip_cons_cons, List.getLast?_cons_cons]
          have := ih (y' :: ys') a b (by simpa using hlen) hx hy
          rw [List.zip_cons_cons] at this
          exact this

/-- Length of swapRemove on a nonempty list. -/
theorem swapRemove_length {α : Type} (xs : List α) (i : ℕ) (hne : xs ≠ []) :
    (swapRemove xs i).length = xs.length - 1 := by
  obtain ⟨b, hb⟩ := Option.isSome_iff_exists.mp (List.getLast?_isSome.mpr hne)
  simp only [swapRemove, hb]
  rw [List.length_dropLast, List.length_set]

/-- Members of a swapRemove were members of the original list. -/
theorem mem_of_mem_swapRemove {α : Type} {a : α} {xs : List α} {i : ℕ}
    (h : a ∈ swapRemove xs i) : a ∈ xs := by
  cases hb : xs.getLast? with
  | none => simpa [swapRemove, hb] using h
  | some b =>
    simp only [swapRemove, hb] at h
    have h2 := List.mem_of_mem_dropLast h
    rcases List.mem_or_eq_of_mem_set h2 with h3 | rfl
    · exact h3
    · rw [List.getLast?_eq_getElem?] at hb
      exact List.getElem?_mem hb

/-- getLast? of a set inside the list. -/
theorem getLast?_set {α : Type} (xs : List α) (i : ℕ) (b : α)
    (hi : i < xs.length) :
    (xs.set i b).getLast? =
      if i = xs.length - 1 then some b else xs.getLast? := by
  have hne : xs ≠ [] := by intro e; subst e; simp at hi
  rw [List.getLast?_eq_getElem?, List.getLast?_eq_getElem?, List.length_set,
    List.getElem?_set]
  by_cases h : i = xs.length - 1 <;> simp [h, hi, hne]

/-- swapRemove commutes with zip on equal-length lists. -/
theorem zip_swapRemove {α β : Type} {xs : List α} {ys : List β} (i : ℕ)
    (hlen : xs.length = ys.length) :
    (swapRemove xs i).zip (swapRemove ys i) = swapRemove (xs.zip ys) i := by
  cases hx : xs.getLast? with
  | none =>
    have hxe : xs = [] := List.getLast?_eq_none.mp hx
    subst hxe
    have hye : ys = [] := List.length_eq_zero.mp hlen.symm
    subst hye
    simp [swapRemove]
  | some a =>
    have hxne : xs ≠ [] := by
      intro e; subst e; simp at hx
    have hyne : ys ≠ [] := by
      intro e; subst e; simp at hlen; exact hxne hlen
    obtain ⟨b, hb⟩ :=
      Option.isSome_iff_exists.mp (List.getLast?_isSome.mpr hyne)
    have hz := zip_getLast? xs ys a b hlen hx hb
    simp only [swapRemove, hx, hb, hz]
    rw [← dropLast_zip, zip_set]

/-- Sum after a set at a valid index. -/
theorem sum_set_get? : ∀ (xs : List ℚ) (i : ℕ) (w a : ℚ),
    xs.get? i = some w → (xs.set i a).sum = xs.sum - w + a := by
  intro xs
  induction xs with
  | nil => intro i w a h; simp at h
  | cons x xs ih =>
    intro i w a h
    cases i with
    | zero =>
      rw [List.get?_cons_zero] at h
      obtain rfl := Option.some.inj h
      rw [List.set_cons_zero, List.sum_cons, List.sum_cons]
      ring
    | succ i =>
      rw [List.get?_cons_succ] at h
      rw [List.set_cons_succ, List.sum_cons, List.sum_cons, ih i w a h]
      ring

/-- Sum after dropping the last element. -/
theorem sum_dropLast {xs : List ℚ} {a : ℚ} (h : xs.getLast? = some a) :
    xs.dropLast.sum = xs.sum - a := by
  have hne : xs ≠ [] := by rintro rfl; simp at h
  have key : xs.dropLast ++ [xs.getLast hne] = xs :=
    List.dropLast_append_getLast hne
  have ha : xs.getLast hne = a := by
    rw [List.getLast?_eq_getLast xs hne] at h
    exact Option.some.inj h
  have hs : xs.dropLast.sum + a = xs.sum := by
    conv_rhs => rw [← key]
    rw [List.sum_append, ha]
    simp
  linarith

/-- Sum after swapRemove at a valid index. -/
theorem sum_swapRemove {xs : List ℚ} {i : ℕ} {w : ℚ}
    (h : xs.get? i = some w) : (swapRemove xs i).sum = xs.sum - w := by
  have hne : xs ≠ [] := by rintro rfl; simp at h
  have hi : i < xs.length := by
    rcases List.get?_eq_some.mp h with ⟨hlt, _⟩
    exact hlt
  obtain ⟨b, hb⟩ := Option.isSome_iff_exists.mp (List.getLast?_isSome.mpr hne)
  simp only [swapRemove, hb]
  have hset : (xs.set i b).getLast? = some b := by
    rw [getLast?_set xs i b hi]
    split
    · rfl
    · exact hb
  rw [sum_dropLast hset, sum_set_get? xs i w b h]
  ring

/-- Sum after eraseIdx at a valid index. -/
theorem sum_eraseIdx : ∀ (xs : List ℚ) (i : ℕ) (w : ℚ),
    xs.get? i = some w → (xs.eraseIdx i).sum = xs.sum - w := by
  intro xs
  induction xs with
  | nil => intro i w h; simp at h
  | cons x xs ih =>
    intro i w h
    cases i with
    | zero =>
      rw [List.get?_cons_zero] at h
      obtain rfl := Option.some.inj h
      rw [List.eraseIdx_cons_zero, List.sum_cons]
      ring
    | succ i =>
      rw [List.get?_cons_succ] at h
      rw [List.eraseIdx_cons_succ, List.sum_cons, List.sum_cons, ih i w h]
      ring

/-- eraseIdx commutes with map. -/
theorem map_eraseIdx {α β : Type} (f : α → β) : ∀ (xs : List α) (i : ℕ),
    (xs.eraseIdx i).map f = (xs.map f).eraseIdx i := by
  intro xs
  induction xs with
  | nil => intro i; simp
  | cons x xs ih =>
    intro i
    cases i with
    | zero => simp
    | succ i =>
      rw [List.eraseIdx_cons_succ, List.map_cons, List.map_cons,
        List.eraseIdx_cons_succ, ih]

end ListSurgery

section Construction

/-- A left fold adding first components equals the initial value plus the
sum of the first components. -/
theorem foldl_add_fst {T : Type} : ∀ (pairs : List (ℚ × T)) (a : ℚ),
    pairs.foldl (fun acc c => acc + c.1) a = a + (pairs.map Prod.fst).sum := by
  intro pairs
  induction pairs with
  | nil => intro a; simp
  | cons p ps ih =>
    intro a
    rw [List.foldl_cons, ih, List.map_cons, List.sum_cons]
    ring

/-- Closed form of the FromIterator fold from any starting state. -/
theorem from_iter_fold {T : Type} : ∀ (pairs : List (ℚ × T))
    (s : Lib.RouletteWheel T),
    pairs.foldl
      (fun s p =>
        { total_fitness := s.total_fitness + p.1
          fitnesses := s.fitnesses ++ [p.1]
          population := s.population ++ [p.2] }) s =
      { total_fitness := s.total_fitness + (pairs.map Prod.fst).sum
        fitnesses := s.fitnesses ++ pairs.map Prod.fst
        population := s.population ++ pairs.map Prod.snd } := by
  intro pairs
  induction pairs with
  | nil => intro s; cases s; simp
  | cons p ps ih =>
    intro s
    rw [List.foldl_cons, ih]
    simp only [List.map_cons, List.sum_cons, List.append_assoc,
      List.singleton_append, Lib.RouletteWheel.mk.injEq]
    exact ⟨by ring, trivial, trivial⟩

/-- Closed form of FromIterator for RouletteWheel. -/
theorem from_iter_eq {T : Type} (pairs : List (ℚ × T)) :
    Lib.from_iter pairs =
      { total_fitness := (pairs.map Prod.fst).sum
        fitnesses := pairs.map Prod.fst
        population := pairs.map Prod.snd } := by
  unfold Lib.from_iter
  rw [from_iter_fold]
  simp [Lib.new]

/-- f32Max is nonnegative. -/
theorem f32Max_nonneg : (0 : ℚ) ≤ f32Max := by
  rw [f32Max]; norm_num

/-- Sequential push of nonnegative weights whose total stays within the
finite range succeeds and appends everything. -/
theorem Lib.pushAll_appends_all {T : Type} : ∀ (pairs : List (ℚ × T))
    (s : Lib.RouletteWheel T),
    0 ≤ s.total_fitness → (∀ p ∈ pairs, 0 ≤ p.1) →
    s.total_fitness + (pairs.map Prod.fst).sum ≤ f32Max →
    Lib.pushAll pairs s = .ok
      { total_fitness := s.total_fitness + (pairs.map Prod.fst).sum
        fitnesses := s.fitnesses ++ pairs.map Prod.fst
        population := s.population ++ pairs.map Prod.snd } := by
  intro pairs
  induction pairs with
  | nil =>
    intro s _ _ _
    cases s
    simp [Lib.pushAll]
  | cons p ps ih =>
    intro s hs hnn hbound
    have hp : 0 ≤ p.1 := hnn p (by simp)
    have hsum_nn : 0 ≤ (ps.map Prod.fst).sum := by
      apply List.sum_nonneg
      intro x hx
      obtain ⟨q, hq, rfl⟩ := List.mem_map.mp hx
      exact hnn q (by simp [hq])
    rw [List.map_cons, List.sum_cons] at hbound
    have hfin : isFiniteF (s.total_fitness + p.1) = true := by
      rw [isFiniteF]
      simp only [Bool.and_eq_true, decide_eq_true_eq]
      have h0 := f32Max_nonneg
      constructor
      · linarith
      · linarith
    have hstep : Lib.push p.1 p.2 s = .ok (Lib.unchecked_push p.1 p.2 s) := by
      unfold Lib.push
      rw [if_pos hp, if_pos hfin]
    simp only [Lib.pushAll, hstep]
    rw [ih (Lib.unchecked_push p.1 p.2 s) (by simp [Lib.unchecked_push]; linarith)
      (fun q hq => hnn q (by simp [hq]))
      (by simp [Lib.unchecked_push]; linarith)]
    simp only [Lib.unchecked_push, PResult.ok.injEq, Lib.RouletteWheel.mk.injEq,
      List.map_cons, List.sum_cons, List.append_assoc, List.singleton_append]
    exact ⟨by ring, trivial, trivial⟩

/-- Sequential deque push of nonnegative probabilities whose total stays
within the finite range succeeds and appends everything. -/
theorem Deque.pushAll_appends_cards {T : Type} : ∀ (cs : List (ℚ × T))
    (s : Deque.RouletteWheel T),
    0 ≤ s.proba_sum → (∀ c ∈ cs, 0 ≤ c.1) →
    s.proba_sum + (cs.map Prod.fst).sum ≤ f32Max →
    Deque.pushAll cs s = .ok
      { proba_sum := s.proba_sum + (cs.map Prod.fst).sum
        cards := s.cards ++ cs } := by
  intro cs
  induction cs with
  | nil =>
    intro s _ _ _
    cases s
    simp [Deque.pushAll]
  | cons c cs ih =>
    intro s hs hnn hbound
    have hc : 0 ≤ c.1 := hnn c (by simp)
    have hsum_nn : 0 ≤ (cs.map Prod.fst).sum := by
      apply List.sum_nonneg
      intro x hx
      obtain ⟨q, hq, rfl⟩ := List.mem_map.mp hx
      exact hnn q (by simp [hq])
    rw [List.map_cons, List.sum_cons] at hbound
    have hninf : isInfiniteF (s.proba_sum + c.1) = false := by
      rw [isInfiniteF]
      simp only [decide_eq_false_iff_not, not_lt]
      rw [abs_of_nonneg (by linarith)]
      linarith
    have hstep : Deque.push c.1 c.2 s = .ok
        { proba_sum := s.proba_sum + c.1, cards := s.cards ++ [c] } := by
      unfold Deque.push
      rw [if_pos hc]
      simp only [hninf, Bool.false_eq_true, if_false]
    simp only [Deque.pushAll, hstep]
    rw [ih { proba_sum := s.proba_sum + c.1, cards := s.cards ++ [c] }
      (by simp; linarith) (fun q hq => hnn q (by simp [hq])) (by simp; linarith)]
    simp only [PResult.ok.injEq, Deque.RouletteWheel.mk.injEq, List.map_cons,
      List.sum_cons, List.append_assoc, List.singleton_append]
    exact ⟨by ring, trivial⟩

/-- From<&[(f32, T)]> on nonnegative probabilities with positive total
builds the wheel with the summed total. -/
theorem Deque.fromSlice_eq {T : Type} (cs : List (ℚ × T))
    (hnn : ∀ c ∈ cs, 0 ≤ c.1) (hpos : 0 < (cs.map Prod.fst).sum) :
    Deque.fromSlice cs =
      some { proba_sum := (cs.map Prod.fst).sum, cards := cs } := by
  unfold Deque.fromSlice
  have hall : cs.all (fun c => decide (0 ≤ c.1)) = true := by
    rw [List.all_eq_true]
    intro c hc
    simpa using hnn c hc
  rw [if_pos hall]
  simp only [foldl_add_fst, zero_add]
  rw [if_pos hpos]

end Construction

section StepLemmas

/-- Inversion of a successful consuming step: it comes from a successful
scan, reads both vectors at the scanned index, and swap removes there. -/
theorem Lib.intoNext_inv {T : Type} {u : ℚ} {s s' : Lib.IntoSelectIter T}
    {f : ℚ} {v : T} (h : Lib.IntoSelectIter.next u s = .yield (f, v) s') :
    ∃ i, scanSelect (u * s.total_fitness) s.fitnesses = some i ∧
      s.fitnesses.get? i = some f ∧ s.population.get? i = some v ∧
      s' = { total_fitness := s.total_fitness - f
             fitnesses := swapRemove s.fitnesses i
             population := swapRemove s.population i } := by
  unfold Lib.IntoSelectIter.next at h
  split at h
  · exact absurd h (by simp)
  · split at h
    · exact absurd h (by simp)
    · rename_i idx hscan
      split at h
      · rename_i fit vv hf hv
        injection h with h1 h2
        injection h1 with hf1 hv1
        subst hf1
        subst hv1
        exact ⟨idx, hscan, hf, hv, h2.symm⟩
      · exact absurd h (by simp)

/-- Inversion of a successful borrowing step. -/
theorem Lib.selectNext_inv {T : Type} {u : ℚ} {s s' : Lib.SelectIter T}
    {f : ℚ} {v : T} (h : Lib.SelectIter.next u s = .yield (f, v) s') :
    ∃ i oi, scanSelect (u * s.total_fitness)
        (s.fitnesses_ids.map Prod.snd) = some i ∧
      s.fitnesses_ids.get? i = some (oi, f) ∧
      s.roulette_wheel.population.get? oi = some v ∧
      s' = { total_fitness := s.total_fitness - f
             fitnesses_ids := swapRemove s.fitnesses_ids i
             roulette_wheel := s.roulette_wheel } := by
  unfold Lib.SelectIter.next at h
  split at h
  · exact absurd h (by simp)
  · split at h
    · exact absurd h (by simp)
    · rename_i idx hscan
      split at h
      · exact absurd h (by simp)
      · rename_i oi fit hp
        split at h
        · exact absurd h (by simp)
        · rename_i vv hv
          injection h with h1 h2
          injection h1 with hf1 hv1
          subst hf1
          subst hv1
          exact ⟨idx, oi, hscan, hp, hv, h2.symm⟩

end StepLemmas

section ForwardLemmas

/-- A consuming step on a nonempty vector whose target does not exceed the
weight sum yields an entry read at the scanned index of both vectors. -/
theorem Lib.intoNext_yield {T : Type} (u : ℚ) (s : Lib.IntoSelectIter T)
    (hne : s.fitnesses ≠ [])
    (hle : u * s.total_fitness ≤ s.fitnesses.sum)
    (hlen : s.fitnesses.length ≤ s.population.length) :
    ∃ i f v, s.fitnesses.get? i = some f ∧ s.population.get? i = some v ∧
      Lib.IntoSelectIter.next u s = .yield (f, v)
        { total_fitness := s.total_fitness - f
          fitnesses := swapRemove s.fitnesses i
          population := swapRemove s.population i } := by
  obtain ⟨i, hscan⟩ := Option.isSome_iff_exists.mp
    (scanSelect_isSome s.fitnesses (u * s.total_fitness) hne hle)
  have hilt : i < s.fitnesses.length := scanSelect_lt_length hscan
  have hf : s.fitnesses.get? i = some (s.fitnesses.get ⟨i, hilt⟩) := by
    rw [List.get?_eq_some]
    exact ⟨hilt, rfl⟩
  have hplt : i < s.population.length := lt_of_lt_of_le hilt hlen
  have hv : s.population.get? i = some (s.population.get ⟨i, hplt⟩) := by
    rw [List.get?_eq_some]
    exact ⟨hplt, rfl⟩
  refine ⟨i, _, _, hf, hv, ?_⟩
  unfold Lib.IntoSelectIter.next
  rw [if_neg hne]
  simp only [hscan, hf, hv]

/-- A borrowing step on a nonempty working vector whose target does not
exceed the working weight sum, with all remembered indices valid, yields
an entry. -/
theorem Lib.selectNext_yield {T : Type} (u : ℚ) (s : Lib.SelectIter T)
    (hne : s.fitnesses_ids ≠ [])
    (hle : u * s.total_fitness ≤ (s.fitnesses_ids.map Prod.snd).sum)
    (hvalid : ∀ p ∈ s.fitnesses_ids,
      p.1 < s.roulette_wheel.population.length) :
    ∃ r s', Lib.SelectIter.next u s = .yield r s' := by
  have hmne : s.fitnesses_ids.map Prod.snd ≠ [] := by simpa using hne
  obtain ⟨i, hscan⟩ := Option.isSome_iff_exists.mp
    (scanSelect_isSome _ _ hmne hle)
  have hilt : i < s.fitnesses_ids.length := by
    have := scanSelect_lt_length hscan
    simpa using this
  rcases hpr : s.fitnesses_ids.get ⟨i, hilt⟩ with ⟨oi, fi⟩
  have hp : s.fitnesses_ids.get? i = some (oi, fi) := by
    rw [List.get?_eq_some]
    exact ⟨hilt, hpr⟩
  have hmem : (oi, fi) ∈ s.fitnesses_ids := List.get?_mem hp
  have hplt : oi < s.roulette_wheel.population.length := hvalid (oi, fi) hmem
  have hv : s.roulette_wheel.population.get? oi =
      some (s.roulette_wheel.population.get ⟨oi, hplt⟩) := by
    rw [List.get?_eq_some]
    exact ⟨hplt, rfl⟩
  refine ⟨(fi, s.roulette_wheel.population.get ⟨oi, hplt⟩),
    { total_fitness := s.total_fitness - fi
      fitnesses_ids := swapRemove s.fitnesses_ids i
      roulette_wheel := s.roulette_wheel }, ?_⟩
  unfold Lib.SelectIter.next
  rw [if_neg hne]
  simp only [hscan, hp, hv]

/-- A borrowing step never changes the borrowed wheel. -/
theorem Lib.selectNext_wheel {T : Type} {u : ℚ} {s s' : Lib.SelectIter T}
    {r : ℚ × T} (h : Lib.SelectIter.next u s = .yield r s') :
    s'.roulette_wheel = s.roulette_wheel := by
  obtain ⟨f, v⟩ := r
  obtain ⟨i, oi, -, -, -, hs⟩ := Lib.selectNext_inv h
  rw [hs]

/-- Running a borrowing session never changes the borrowed wheel. -/
theorem Lib.selectDrain_wheel {T : Type} : ∀ (n : ℕ) (us : ℕ → ℚ)
    (s : Lib.SelectIter T),
    (Lib.selectDrain us n s).roulette_wheel = s.roulette_wheel := by
  intro n
  induction n with
  | zero => intro us s; rfl
  | succ n ih =>
    intro us s
    simp only [Lib.selectDrain]
    split
    · rename_i r s' hn
      exact (ih _ _).trans (Lib.selectNext_wheel hn)
    · rfl

/-- A rescan that panics leaves the cards unchanged. -/
theorem Deque.updateGo_cards {T : Type} : ∀ (cs : List (ℚ × T))
    (s : Deque.RouletteWheel T) (acc : ℚ) (s' : Deque.RouletteWheel T),
    Deque.updateGo s acc cs = .panicked s' → s'.cards = s.cards := by
  intro cs
  induction cs with
  | nil =>
    intro s acc s' h
    unfold Deque.updateGo at h
    split at h
    · injection h with h1
      rw [← h1]
    · exact absurd h (by simp)
  | cons c cs ih =>
    intro s acc s' h
    unfold Deque.updateGo at h
    split at h
    · exact ih s (acc + c.1) s' h
    · injection h with h1
      rw [← h1]

end ForwardLemmas

section DrainLemmas

/-- Under the sum invariant, a draw from a nonempty wheel with positive
total always finds an index. -/
theorem Deque.get_random_index_some {T : Type} (u : ℚ)
    (s : Deque.RouletteWheel T) (hne : s.cards ≠ []) (hpos : 0 < s.proba_sum)
    (hinv : s.proba_sum = (s.cards.map Prod.fst).sum) (hu1 : u < 1) :
    ∃ i, Deque.get_random_index u s = some i ∧ i < s.cards.length := by
  have hbe : Deque.is_empty s = false := by
    simp only [Deque.is_empty, Deque.len, decide_eq_false_iff_not,
      List.length_eq_zero]
    exact hne
  have hmne : s.cards.map Prod.fst ≠ [] := by simpa using hne
  have hle : u * s.proba_sum ≤ (s.cards.map Prod.fst).sum := by
    rw [← hinv]
    nlinarith [mul_pos (by linarith : (0 : ℚ) < 1 - u) hpos]
  obtain ⟨i, hscan⟩ := Option.isSome_iff_exists.mp
    (scanSelect_isSome _ _ hmne hle)
  refine ⟨i, ?_, ?_⟩
  · unfold Deque.get_random_index
    rw [if_pos ⟨hbe, hpos⟩]
    unfold Deque.gen_random_dist
    rw [if_pos hpos]
    exact hscan
  · have := scanSelect_lt_length hscan
    simpa using this

/-- Under the sum invariant, pop from a nonempty wheel with positive total
removes the card at the drawn index. -/
theorem Deque.pop_step {T : Type} (u : ℚ) (s : Deque.RouletteWheel T)
    (hne : s.cards ≠ []) (hpos : 0 < s.proba_sum)
    (hinv : s.proba_sum = (s.cards.map Prod.fst).sum) (hu1 : u < 1) :
    ∃ i c, i < s.cards.length ∧ s.cards.get? i = some c ∧
      Deque.pop u s = (some c,
        { proba_sum := s.proba_sum - c.1, cards := s.cards.eraseIdx i }) := by
  obtain ⟨i, hidx, hlt⟩ := Deque.get_random_index_some u s hne hpos hinv hu1
  have hc : s.cards.get? i = some (s.cards.get ⟨i, hlt⟩) := by
    rw [List.get?_eq_some]
    exact ⟨hlt, rfl⟩
  refine ⟨i, _, hlt, hc, ?_⟩
  unfold Deque.pop
  simp only [hidx, hc]

/-- Draining pop over a wheel of strictly positive weights (with a correct
stored sum) ends with no cards at all. -/
theorem Deque.popDrain_empties {T : Type} : ∀ (n : ℕ) (us : ℕ → ℚ)
    (s : Deque.RouletteWheel T),
    (∀ k, 0 ≤ us k ∧ us k < 1) →
    s.cards.length = n →
    s.proba_sum = (s.cards.map Prod.fst).sum →
    (∀ c ∈ s.cards, 0 < c.1) →
    (Deque.popDrain us n s).cards = [] := by
  intro n
  induction n with
  | zero =>
    intro us s _ h0 _ _
    simp only [Deque.popDrain]
    exact List.length_eq_zero.mp h0
  | succ n ih =>
    intro us s hus h0 hinv hposall
    have hne : s.cards ≠ [] := by
      intro e
      rw [e] at h0
      simp at h0
    have hpos : 0 < s.proba_sum := by
      rw [hinv]
      apply List.sum_pos
      · intro x hx
        obtain ⟨c, hc, rfl⟩ := List.mem_map.mp hx
        exact hposall c hc
      · simpa using hne
    obtain ⟨i, c, hlt, hc, hpop⟩ :=
      Deque.pop_step (us 0) s hne hpos hinv (hus 0).2
    simp only [Deque.popDrain, hpop]
    refine ih (fun k => us (k + 1)) _ (fun k => hus (k + 1)) ?_ ?_ ?_
    · show (s.cards.eraseIdx i).length = n
      rw [List.length_eraseIdx, if_pos hlt]
      omega
    · show s.proba_sum - c.1 = ((s.cards.eraseIdx i).map Prod.fst).sum
      rw [map_eraseIdx, sum_eraseIdx _ _ _ (by rw [List.get?_map, hc]; rfl),
        ← hinv]
    · intro c' hc'
      exact hposall c' ((List.eraseIdx_sublist _ _).subset hc')

/-- Draining the consuming iterator over nonnegative weights (with a
correct stored total and aligned vectors) empties it completely. -/
theorem Lib.intoDrain_empties {T : Type} : ∀ (n : ℕ) (us : ℕ → ℚ)
    (s : Lib.IntoSelectIter T),
    (∀ k, 0 ≤ us k ∧ us k < 1) →
    s.fitnesses.length = n →
    s.total_fitness = s.fitnesses.sum →
    (∀ w ∈ s.fitnesses, 0 ≤ w) →
    s.fitnesses.length = s.population.length →
    (Lib.intoDrain us n s).fitnesses = [] ∧
      (Lib.intoDrain us n s).population = [] := by
  intro n
  induction n with
  | zero =>
    intro us s _ h0 _ _ hlen
    simp only [Lib.intoDrain]
    constructor
    · exact List.length_eq_zero.mp h0
    · exact List.length_eq_zero.mp (by omega)
  | succ n ih =>
    intro us s hus h0 hinv hnn hlen
    have hne : s.fitnesses ≠ [] := by
      intro e
      rw [e] at h0
      simp at h0
    have hsum_nn : 0 ≤ s.fitnesses.sum := List.sum_nonneg hnn
    have hle : us 0 * s.total_fitness ≤ s.fitnesses.sum := by
      rw [hinv]
      nlinarith [mul_nonneg (by linarith [(hus 0).2] : (0 : ℚ) ≤ 1 - us 0)
        hsum_nn]
    obtain ⟨i, f, v, hf, hv, hnext⟩ :=
      Lib.intoNext_yield (us 0) s hne hle (le_of_eq hlen)
    have hpne : s.population ≠ [] := by
      intro e
      rw [e] at hlen
      simp at hlen
      exact hne hlen
    simp only [Lib.intoDrain, hnext]
    refine ih (fun k => us (k + 1)) _ (fun k => hus (k + 1)) ?_ ?_ ?_ ?_
    · show (swapRemove s.fitnesses i).length = n
      rw [swapRemove_length _ _ hne]
      omega
    · show s.total_fitness - f = (swapRemove s.fitnesses i).sum
      rw [sum_swapRemove hf, hinv]
    · intro w hw
      exact hnn w (mem_of_mem_swapRemove hw)
    · show (swapRemove s.fitnesses i).length = (swapRemove s.population i).length
      rw [swapRemove_length _ _ hne, swapRemove_length _ _ hpne, hlen]

end DrainLemmas

/-- The selection rule of the specification: index i is the first position
in scan order at which the cumulative weight reaches the target. -/
def firstCross (t : ℚ) (ws : List ℚ) (i : ℕ) : Prop :=
  i < ws.length ∧ t ≤ ((ws.take (i + 1)).sum) ∧
    ∀ j, j < i → ((ws.take (j + 1)).sum) < t

/-- C1: every weighted draw (pop via get_random_index, the consuming
IntoSelectIter and the borrowing SelectIter) selects by the
cumulative-subtraction scan with target u times the stored total:
get_random_index returns exactly the first index whose cumulative weight
reaches u * proba_sum, and every successful iterator step yields the entry
stored at such a first-crossing index of its weight list; each draw path
is a pure function of the sample and the entry order, hence deterministic
for a fixed sample and entry order. -/
theorem draws_select_first_index_reaching_target {T : Type} (u : ℚ) :
    (∀ (s : Deque.RouletteWheel T) (i : ℕ), s.cards ≠ [] →
      0 < s.proba_sum →
      (Deque.get_random_index u s = some i ↔
        firstCross (u * s.proba_sum) (s.cards.map Prod.fst) i)) ∧
    (∀ (s s' : Lib.IntoSelectIter T) (f : ℚ) (v : T),
      Lib.IntoSelectIter.next u s = .yield (f, v) s' →
      ∃ i, firstCross (u * s.total_fitness) s.fitnesses i ∧
        s.fitnesses.get? i = some f ∧ s.population.get? i = some v ∧
        s' = { total_fitness := s.total_fitness - f
               fitnesses := swapRemove s.fitnesses i
               population := swapRemove s.population i }) ∧
    (∀ (s s' : Lib.SelectIter T) (f : ℚ) (v : T),
      Lib.SelectIter.next u s = .yield (f, v) s' →
      ∃ i oi, firstCross (u * s.total_fitness)
          (s.fitnesses_ids.map Prod.snd) i ∧
        s.fitnesses_ids.get? i = some (oi, f) ∧
        s.roulette_wheel.population.get? oi = some v ∧
        s' = { total_fitness := s.total_fitness - f
               fitnesses_ids := swapRemove s.fitnesses_ids i
               roulette_wheel := s.roulette_wheel }) := by
  refine ⟨?_, ?_, ?_⟩
  · intro s i hne hpos
    have hbe : Deque.is_empty s = false := by
      simp only [Deque.is_empty, Deque.len, decide_eq_false_iff_not,
        List.length_eq_zero]
      exact hne
    unfold Deque.get_random_index
    rw [if_pos ⟨hbe, hpos⟩]
    unfold Deque.gen_random_dist
    rw [if_pos hpos]
    exact scanSelect_eq_some_iff (s.cards.map Prod.fst) (u * s.proba_sum) i
  · intro s s' f v h
    obtain ⟨i, hscan, hf, hv, hs⟩ := Lib.intoNext_inv h
    exact ⟨i, (scanSelect_eq_some_iff _ _ i).mp hscan, hf, hv, hs⟩
  · intro s s' f v h
    obtain ⟨i, oi, hscan, hp, hv, hs⟩ := Lib.selectNext_inv h
    exact ⟨i, oi, (scanSelect_eq_some_iff _ _ i).mp hscan, hp, hv, hs⟩

/-- C1's theorem applied at a concrete wheel, sample and index. -/
theorem draws_select_first_index_reaching_target_app :
    Deque.get_random_index (1/2)
        ({ proba_sum := 1, cards := [((1 : ℚ), (5 : ℕ))] } :
          Deque.RouletteWheel ℕ) = some 0 ↔
      firstCross ((1/2 : ℚ) * 1) [1] 0 :=
  (draws_select_first_index_reaching_target (1/2)).1
    { proba_sum := 1, cards := [(1, 5)] } 0 (by decide) (by norm_num)

/-- C2 counterexample: a reachable consuming iterator over a nonempty
all-zero-weight pool does not return the empty result on draw: it yields
the zero-weight entry. -/
theorem consuming_iter_yields_zero_weight_entry :
    Lib.IntoSelectIter.from_rng (Lib.from_iter [((0 : ℚ), (7 : ℕ))]) =
      { total_fitness := 0, fitnesses := [0], population := [7] } ∧
    ({ total_fitness := 0, fitnesses := [0], population := [7] } :
        Lib.IntoSelectIter ℕ).fitnesses ≠ [] ∧
    ({ total_fitness := 0, fitnesses := [0], population := [7] } :
        Lib.IntoSelectIter ℕ).total_fitness ≤ 0 ∧
    Lib.IntoSelectIter.next (1/2)
        { total_fitness := 0, fitnesses := [0], population := [7] } =
      .yield ((0 : ℚ), (7 : ℕ))
        { total_fitness := 0, fitnesses := [], population := [] } := by
  refine ⟨by norm_num [Lib.IntoSelectIter.from_rng, Lib.from_iter, Lib.new],
    by decide, by norm_num,
    by norm_num [Lib.IntoSelectIter.next, scanSelect, swapRemove]⟩

/-- C2 (amended): pop returns the empty result exactly when the pool has
no entries or its total weight is not positive (given the stored total
equals the sum of the card weights and the sample is below 1); the
consuming iterator IntoSelectIter instead reports exhaustion exactly when
its entry vector is empty, so a nonempty all-zero-weight pool still
yields zero-weight entries from it rather than the empty result. -/
theorem empty_draw_conditions {T : Type} (u : ℚ) :
    (∀ s : Deque.RouletteWheel T,
      s.proba_sum = (s.cards.map Prod.fst).sum → u < 1 →
      ((Deque.pop u s).1 = none ↔ (s.cards = [] ∨ s.proba_sum ≤ 0))) ∧
    (∀ s : Lib.IntoSelectIter T,
      (Lib.IntoSelectIter.next u s = .done ↔ s.fitnesses = [])) := by
  constructor
  · intro s hinv hu1
    constructor
    · intro hnone
      by_contra hcon
      push_neg at hcon
      obtain ⟨hne, hpos⟩ := hcon
      obtain ⟨i, c, hlt, hc, hpop⟩ := Deque.pop_step u s hne hpos hinv hu1
      rw [hpop] at hnone
      simp at hnone
    · intro hor
      have hcond : ¬ (Deque.is_empty s = false ∧ 0 < s.proba_sum) := by
        rintro ⟨hbe, hpos⟩
        rcases hor with he | hle
        · rw [Deque.is_empty, Deque.len] at hbe
          simp [he] at hbe
        · linarith
      have hnone : Deque.get_random_index u s = none := by
        unfold Deque.get_random_index
        rw [if_neg hcond]
      simp [Deque.pop, hnone]
  · intro s
    constructor
    · intro h
      by_contra hne
      unfold Lib.IntoSelectIter.next at h
      rw [if_neg hne] at h
      split at h
      · simp at h
      · split at h
        · simp at h
        · simp at h
    · intro he
      unfold Lib.IntoSelectIter.next
      rw [if_pos he]

/-- C2's amended theorem applied at a concrete one-card wheel. -/
theorem empty_draw_conditions_app :
    ((Deque.pop (1/2) ({ proba_sum := 1, cards := [((1 : ℚ), (5 : ℕ))] } :
        Deque.RouletteWheel ℕ)).1 = none ↔
      ([((1 : ℚ), (5 : ℕ))] = ([] : List (ℚ × ℕ)) ∨ (1 : ℚ) ≤ 0)) :=
  (empty_draw_conditions (1/2)).1 { proba_sum := 1, cards := [(1, 5)] }
    (by simp) (by norm_num)

/-- C3 counterexample: with a stored working total above the sum of the
remaining weights (the drift situation the claim itself describes), the
cumulative scan exhausts and the borrowing step panics (the unwrap of a
None position), while get_random_index returns None — in neither case is
the last remaining entry selected as a fallback. -/
theorem scan_exhaustion_panics_no_fallback :
    ({ total_fitness := 3, fitnesses_ids := [(0, 1)],
       roulette_wheel :=
         { total_fitness := 1, fitnesses := [1], population := [7] } } :
      Lib.SelectIter ℕ).fitnesses_ids ≠ [] ∧
    Lib.SelectIter.next (1/2)
      { total_fitness := 3, fitnesses_ids := [(0, 1)],
        roulette_wheel :=
          { total_fitness := 1, fitnesses := [1], population := [7] } } =
      (.panicked : Step (ℚ × ℕ) (Lib.SelectIter ℕ)) ∧
    Deque.get_random_index (1/2)
      ({ proba_sum := 3, cards := [((1 : ℚ), (7 : ℕ))] } :
        Deque.RouletteWheel ℕ) = none := by
  refine ⟨by decide, by norm_num [Lib.SelectIter.next, scanSelect],
    by norm_num [Deque.get_random_index, Deque.gen_random_dist,
      Deque.is_empty, Deque.len, scanSelect]⟩

/-- C3 (amended): the code contains no last-entry fallback — when the
scan exhausts, SelectIter and IntoSelectIter panic and get_random_index
returns None (counterexample above); what does hold is that the scan can
only exhaust when the target u * stored-total exceeds the sum of the
remaining weights: whenever the target is at most that sum, every draw
path selects an entry without failing, at worst the last one — in
particular under exact arithmetic, where the stored total equals the sum,
the total is positive and u < 1. -/
theorem scan_within_sum_always_selects {T : Type} (u : ℚ) :
    (∀ s : Lib.SelectIter T, s.fitnesses_ids ≠ [] →
      u * s.total_fitness ≤ (s.fitnesses_ids.map Prod.snd).sum →
      (∀ p ∈ s.fitnesses_ids,
        p.1 < s.roulette_wheel.population.length) →
      ∃ r s', Lib.SelectIter.next u s = .yield r s') ∧
    (∀ s : Lib.IntoSelectIter T, s.fitnesses ≠ [] →
      u * s.total_fitness ≤ s.fitnesses.sum →
      s.fitnesses.length ≤ s.population.length →
      ∃ r s', Lib.IntoSelectIter.next u s = .yield r s') ∧
    (∀ s : Deque.RouletteWheel T, s.cards ≠ [] → 0 < s.proba_sum →
      u * s.proba_sum ≤ (s.cards.map Prod.fst).sum →
      ∃ i, Deque.get_random_index u s = some i) := by
  refine ⟨?_, ?_, ?_⟩
  · intro s hne hle hvalid
    exact Lib.selectNext_yield u s hne hle hvalid
  · intro s hne hle hlen
    obtain ⟨i, f, v, _, _, hnext⟩ := Lib.intoNext_yield u s hne hle hlen
    exact ⟨(f, v), _, hnext⟩
  · intro s hne hpos hle
    have hbe : Deque.is_empty s = false := by
      simp only [Deque.is_empty, Deque.len, decide_eq_false_iff_not,
        List.length_eq_zero]
      exact hne
    have hmne : s.cards.map Prod.fst ≠ [] := by simpa using hne
    obtain ⟨i, hscan⟩ := Option.isSome_iff_exists.mp
      (scanSelect_isSome _ _ hmne hle)
    refine ⟨i, ?_⟩
    unfold Deque.get_random_index
    rw [if_pos ⟨hbe, hpos⟩]
    unfold Deque.gen_random_dist
    rw [if_pos hpos]
    exact hscan

/-- C3's amended theorem applied at a concrete borrowing session. -/
theorem scan_within_sum_always_selects_app :
    ∃ r s', Lib.SelectIter.next (1/2)
      (Lib.SelectIter.from_rng
        ({ total_fitness := 1, fitnesses := [1], population := [5] } :
          Lib.RouletteWheel ℕ)) = .yield r s' :=
  (scan_within_sum_always_selects (1/2)).1 _ (by decide)
    (by norm_num [Lib.SelectIter.from_rng, List.enum, List.enumFrom])
    (by decide)

/-- C4 counterexample: a deque push that overflows the total panics only
after the entry was appended and the total updated (the panicked state
holds two cards instead of one), and a rescan that meets a negative
weight panics with the total already partially overwritten (1 instead of
the prior 0) — neither failure leaves the pool exactly in its prior
state. -/
theorem overflow_push_and_rescan_mutate_state :
    Deque.push f32Max (0 : ℕ) Deque.new =
      .ok { proba_sum := f32Max, cards := [(f32Max, 0)] } ∧
    Deque.push f32Max (0 : ℕ)
        { proba_sum := f32Max, cards := [(f32Max, 0)] } =
      .panicked { proba_sum := f32Max + f32Max,
                  cards := [(f32Max, 0), (f32Max, 0)] } ∧
    ((2 : ℕ) ≠ 1) ∧
    Deque.update_proba_sum
        { proba_sum := 0, cards := [((1 : ℚ), (0 : ℕ)), (-1, 1)] } =
      .panicked { proba_sum := 1, cards := [(1, 0), (-1, 1)] } ∧
    ((1 : ℚ) ≠ 0) := by
  have hpos : (0 : ℚ) < f32Max := by norm_num [f32Max]
  have hninf : isInfiniteF f32Max = false := by
    rw [isInfiniteF, abs_of_nonneg (le_of_lt hpos)]
    simp
  have hinf : isInfiniteF (f32Max + f32Max) = true := by
    rw [isInfiniteF, abs_of_nonneg (by linarith)]
    simp only [decide_eq_true_eq]
    linarith
  refine ⟨?_, ?_, by decide, ?_, by norm_num⟩
  · simp [Deque.push, Deque.new, hninf, le_of_lt hpos]
  · simp [Deque.push, hinf, le_of_lt hpos]
  · norm_num [Deque.update_proba_sum, Deque.updateGo]

/-- C4 (amended): the Vec-based push validates before mutating — a
negative weight or a non-finite new total panics with the pool exactly
unchanged; the deque push also rejects a negative weight with the pool
unchanged, and a panicking rescan leaves the entries unchanged; but the
deque push's overflow rejection occurs only after the entry was appended
and the total updated, and the panicking rescan leaves the total
partially overwritten (counterexample above). -/
theorem validating_rejections_leave_state_unchanged {T : Type} :
    (∀ (f : ℚ) (v : T) (s : Lib.RouletteWheel T),
      f < 0 ∨ isFiniteF (s.total_fitness + f) = false →
      Lib.push f v s = .panicked s) ∧
    (∀ (p : ℚ) (d : T) (s : Deque.RouletteWheel T), p < 0 →
      Deque.push p d s = .panicked s) ∧
    (∀ (s s' : Deque.RouletteWheel T),
      Deque.update_proba_sum s = .panicked s' → s'.cards = s.cards) := by
  refine ⟨?_, ?_, ?_⟩
  · intro f v s h
    unfold Lib.push
    rcases h with hneg | hinf
    · rw [if_neg (by linarith)]
    · by_cases h0 : 0 ≤ f
      · rw [if_pos h0]
        simp [hinf]
      · rw [if_neg h0]
  · intro p d s h
    unfold Deque.push
    rw [if_neg (by linarith)]
  · intro s s' h
    exact Deque.updateGo_cards s.cards s 0 s' h

/-- C4's amended theorem applied at a concrete invalid insert. -/
theorem validating_rejections_leave_state_unchanged_app :
    Lib.push (-1 : ℚ) (0 : ℕ) Lib.new = .panicked Lib.new :=
  (validating_rejections_leave_state_unchanged).1 (-1) 0 Lib.new
    (Or.inl (by norm_num))

/-- C5: the claim requires clearing to reset the pool to the empty state
with zero total weight; in both implementations clear removes the entries
but leaves the stored total untouched: after building a pool holding one
entry of weight 1 and clearing it, the entry storage is empty while the
stored total is still 1, contradicting the documented meaning of the
total (the sum of all weights currently in the wheel). -/
theorem clear_retains_stale_total :
    (Lib.clear (Lib.from_iter [((1 : ℚ), (0 : ℕ))])).fitnesses = [] ∧
    (Lib.clear (Lib.from_iter [((1 : ℚ), (0 : ℕ))])).population = [] ∧
    (Lib.clear (Lib.from_iter [((1 : ℚ), (0 : ℕ))])).total_fitness = 1 ∧
    Deque.push (1 : ℚ) (0 : ℕ) Deque.new =
      .ok { proba_sum := 1, cards := [(1, 0)] } ∧
    (Deque.clear { proba_sum := 1, cards := [((1 : ℚ), (0 : ℕ))] }).cards
      = [] ∧
    (Deque.clear { proba_sum := 1, cards := [((1 : ℚ), (0 : ℕ))] }).proba_sum
      = 1 := by
  refine ⟨rfl, rfl, ?_, ?_, rfl, rfl⟩
  · norm_num [Lib.from_iter, Lib.clear, Lib.new]
  · have hninf : isInfiniteF (1 : ℚ) = false := by
      rw [isInfiniteF]
      norm_num [f32Max]
    simp [Deque.push, Deque.new, hninf]

/-- C6 counterexample: bulk construction does not fail exactly where
insert would — the iterator-based constructor performs no validation and
accepts a negative weight that push rejects, while the slice-based
constructor rejects an all-zero weight list although pushing those same
weights succeeds. -/
theorem bulk_construction_validation_differs :
    Lib.from_iter [((-1 : ℚ), (0 : ℕ))] =
      { total_fitness := -1, fitnesses := [-1], population := [0] } ∧
    Lib.push (-1 : ℚ) (0 : ℕ) Lib.new = .panicked Lib.new ∧
    Deque.fromSlice [((0 : ℚ), (0 : ℕ))] = none ∧
    Deque.push (0 : ℚ) (0 : ℕ) Deque.new =
      .ok { proba_sum := 0, cards := [(0, 0)] } := by
  refine ⟨?_, ?_, ?_, ?_⟩
  · norm_num [Lib.from_iter, Lib.new]
  · norm_num [Lib.push]
  · norm_num [Deque.fromSlice]
  · have hninf : isInfiniteF (0 : ℚ) = false := by
      rw [isInfiniteF]
      norm_num [f32Max]
    simp [Deque.push, Deque.new, hninf]

/-- C6 (amended): on weight lists that sequential insert accepts — all
nonnegative with a total in the finite range — bulk construction agrees
with sequential insertion: the iterator-based constructor produces
exactly the pool that repeated push produces, and (when the total is
additionally positive, which the slice constructor demands) the
slice-based constructor produces a pool of the same length and total as
repeated push.  The two constructions differ from repeated insert only in
their validation (counterexample above). -/
theorem bulk_equals_sequential_on_valid_weights {T : Type}
    (pairs : List (ℚ × T))
    (hnn : ∀ p ∈ pairs, 0 ≤ p.1)
    (hb : (pairs.map Prod.fst).sum ≤ f32Max) :
    Lib.pushAll pairs Lib.new = .ok (Lib.from_iter pairs) ∧
    (0 < (pairs.map Prod.fst).sum →
      ∃ s : Deque.RouletteWheel T, Deque.fromSlice pairs = some s ∧
        Deque.pushAll pairs Deque.new = .ok s ∧
        s.cards.length = pairs.length ∧
        s.proba_sum = (pairs.map Prod.fst).sum) := by
  constructor
  · rw [Lib.pushAll_appends_all pairs Lib.new (by norm_num [Lib.new]) hnn
      (by norm_num [Lib.new]; exact hb), from_iter_eq]
    simp [Lib.new]
  · intro hpos
    refine ⟨{ proba_sum := (pairs.map Prod.fst).sum, cards := pairs },
      Deque.fromSlice_eq pairs hnn hpos, ?_, by simp, rfl⟩
    rw [Deque.pushAll_appends_cards pairs Deque.new (by norm_num [Deque.new]) hnn
      (by norm_num [Deque.new]; exact hb)]
    simp [Deque.new]

/-- C6's amended theorem applied at a concrete pair list. -/
theorem bulk_equals_sequential_on_valid_weights_app :
    Lib.pushAll [((1 : ℚ), (10 : ℕ)), (2, 20)] Lib.new =
      .ok (Lib.from_iter [((1 : ℚ), (10 : ℕ)), (2, 20)]) :=
  (bulk_equals_sequential_on_valid_weights [((1 : ℚ), (10 : ℕ)), (2, 20)]
    (by norm_num) (by norm_num [f32Max])).1

/-- C7: a borrowing draw session mutates only its own working copy of
(index, weight) bookkeeping — after any number of steps (in particular a
full session run to exhaustion) the underlying pool is exactly the pool
the session was created from: same entries, same length, same stored
total weight. -/
theorem borrowing_session_leaves_pool_unchanged {T : Type}
    (w : Lib.RouletteWheel T) (us : ℕ → ℚ) (n : ℕ) :
    (Lib.selectDrain us n (Lib.SelectIter.from_rng w)).roulette_wheel = w ∧
    Lib.len ((Lib.selectDrain us n
      (Lib.SelectIter.from_rng w)).roulette_wheel) = Lib.len w ∧
    ((Lib.selectDrain us n
      (Lib.SelectIter.from_rng w)).roulette_wheel).total_fitness =
      w.total_fitness := by
  have h := Lib.selectDrain_wheel n us (Lib.SelectIter.from_rng w)
  have h0 : (Lib.SelectIter.from_rng w).roulette_wheel = w := rfl
  rw [h, h0]
  exact ⟨rfl, rfl, rfl⟩

/-- C8 counterexample: the pop-based consuming iterator can end while the
pool is not yet physically empty — a pool holding one zero-weight entry
(built by a legal push) yields nothing, the sequence ends at once, and
the pool still has one entry. -/
theorem pop_iter_leaves_zero_weight_entry :
    Deque.push (0 : ℚ) (5 : ℕ) Deque.new =
      .ok { proba_sum := 0, cards := [(0, 5)] } ∧
    Deque.pop (1/2) { proba_sum := 0, cards := [((0 : ℚ), (5 : ℕ))] } =
      (none, { proba_sum := 0, cards := [(0, 5)] }) ∧
    Deque.popDrain (fun _ => 1/2) 3
        { proba_sum := 0, cards := [((0 : ℚ), (5 : ℕ))] } =
      { proba_sum := 0, cards := [(0, 5)] } ∧
    ({ proba_sum := 0, cards := [((0 : ℚ), (5 : ℕ))] } :
      Deque.RouletteWheel ℕ).cards.length = 1 := by
  have hninf : isInfiniteF (0 : ℚ) = false := by
    rw [isInfiniteF]
    norm_num [f32Max]
  have hpop : Deque.pop (1/2 : ℚ)
      ({ proba_sum := 0, cards := [((0 : ℚ), (5 : ℕ))] } :
        Deque.RouletteWheel ℕ) =
      (none, { proba_sum := 0, cards := [(0, 5)] }) := by
    norm_num [Deque.pop, Deque.get_random_index]
  refine ⟨by simp [Deque.push, Deque.new, hninf], hpop, ?_, by decide⟩
  simp only [Deque.popDrain, hpop]

/-- C8 (amended): the Vec-based consuming iterator does physically empty
the pool — under the total invariant, nonnegative weights and aligned
vectors, draining it for (length) steps removes every entry; the
pop-based consuming iterator empties the pool provided every entry
weight is strictly positive, while zero-weight entries can remain behind
when the total reaches zero (counterexample above). -/
theorem consuming_drains_empty_pool {T : Type} (us : ℕ → ℚ)
    (hus : ∀ k, 0 ≤ us k ∧ us k < 1) :
    (∀ s : Lib.IntoSelectIter T,
      s.total_fitness = s.fitnesses.sum →
      (∀ w ∈ s.fitnesses, 0 ≤ w) →
      s.fitnesses.length = s.population.length →
      (Lib.intoDrain us s.fitnesses.length s).fitnesses = [] ∧
        (Lib.intoDrain us s.fitnesses.length s).population = []) ∧
    (∀ s : Deque.RouletteWheel T,
      s.proba_sum = (s.cards.map Prod.fst).sum →
      (∀ c ∈ s.cards, 0 < c.1) →
      (Deque.popDrain us s.cards.length s).cards = []) :=
  ⟨fun s hinv hnn hlen =>
    Lib.intoDrain_empties s.fitnesses.length us s hus rfl hinv hnn hlen,
   fun s hinv hposall =>
    Deque.popDrain_empties s.cards.length us s hus rfl hinv hposall⟩

/-- C8's amended theorem applied at a concrete two-entry pool. -/
theorem consuming_drains_empty_pool_app :
    (Lib.intoDrain (fun _ => (1/2 : ℚ)) 2
      { total_fitness := 3, fitnesses := [1, 2],
        population := [(10 : ℕ), 20] }).fitnesses = [] :=
  ((consuming_drains_empty_pool (fun _ => (1/2 : ℚ))
      (fun _ => ⟨by norm_num, by norm_num⟩)).1
    { total_fitness := 3, fitnesses := [1, 2], population := [10, 20] }
    (by norm_num) (by decide) (by decide)).1

/-- C9 counterexample: a pool holding exactly one entry of weight zero is
not drawn with probability 1 — pop returns the empty result for every
sample and leaves the entry in place. -/
theorem single_zero_weight_pop_returns_none :
    Deque.pop (1/2) { proba_sum := 0, cards := [((0 : ℚ), (9 : ℕ))] } =
      (none, { proba_sum := 0, cards := [(0, 9)] }) ∧
    ({ proba_sum := 0, cards := [((0 : ℚ), (9 : ℕ))] } :
      Deque.RouletteWheel ℕ).cards.length = 1 := by
  refine ⟨?_, by decide⟩
  norm_num [Deque.pop, Deque.get_random_index]

/-- C9 (amended): a pool with exactly one entry draws that entry for
every sample u < 1: pop returns it whenever its weight is strictly
positive (a zero weight instead gives the empty result, counterexample
above), and the consuming iterator returns it for every nonnegative
weight, zero included. -/
theorem single_entry_draw_returns_entry {T : Type} (u w : ℚ) (d : T)
    (hu1 : u < 1) :
    (0 < w → Deque.pop u { proba_sum := w, cards := [(w, d)] } =
      (some (w, d), { proba_sum := w - w, cards := [] })) ∧
    (0 ≤ w → Lib.IntoSelectIter.next u
        { total_fitness := w, fitnesses := [w], population := [d] } =
      .yield (w, d)
        { total_fitness := w - w, fitnesses := [], population := [] }) := by
  constructor
  · intro hw
    have hscan : scanSelect (u * w) [w] = some 0 := by
      simp only [scanSelect]
      rw [if_pos (by nlinarith)]
    have hidx : Deque.get_random_index u
        { proba_sum := w, cards := [(w, d)] } = some 0 := by
      unfold Deque.get_random_index
      rw [if_pos ⟨by simp [Deque.is_empty, Deque.len], hw⟩]
      unfold Deque.gen_random_dist
      rw [if_pos hw]
      simpa using hscan
    simp [Deque.pop, hidx]
  · intro hw
    have hscan : scanSelect (u * w) [w] = some 0 := by
      simp only [scanSelect]
      rw [if_pos (by nlinarith)]
    unfold Lib.IntoSelectIter.next
    rw [if_neg (by simp)]
    simp only [hscan]
    simp [swapRemove]

/-- C9's amended theorem applied at a concrete single-entry pool. -/
theorem single_entry_draw_returns_entry_app :
    Deque.pop (1/2) { proba_sum := 1, cards := [((1 : ℚ), (5 : ℕ))] } =
      (some (1, 5), { proba_sum := 1 - 1, cards := [] }) :=
  (single_entry_draw_returns_entry (1/2) 1 5 (by norm_num)).1 (by norm_num)

/-- C10: the fitness and population vectors keep equal lengths across
unchecked_push, successful push, clear, bulk construction and successful
consuming steps; and a successful consuming step yields a pair of the
zip of the two vectors while the new zip is a swapRemove of the old zip
at one common index — so every yielded (fitness, value) pair is a pair
that was inserted together. -/
theorem parallel_vectors_stay_aligned {T : Type} :
    (∀ (f : ℚ) (v : T) (s : Lib.RouletteWheel T),
      s.fitnesses.length = s.population.length →
      (Lib.unchecked_push f v s).fitnesses.length =
        (Lib.unchecked_push f v s).population.length) ∧
    (∀ (f : ℚ) (v : T) (s s' : Lib.RouletteWheel T),
      s.fitnesses.length = s.population.length →
      Lib.push f v s = .ok s' →
      s'.fitnesses.length = s'.population.length) ∧
    (∀ s : Lib.RouletteWheel T,
      (Lib.clear s).fitnesses.length = (Lib.clear s).population.length) ∧
    (∀ pairs : List (ℚ × T),
      (Lib.from_iter pairs).fitnesses.length =
        (Lib.from_iter pairs).population.length) ∧
    (∀ (u : ℚ) (s s' : Lib.IntoSelectIter T) (f : ℚ) (v : T),
      s.fitnesses.length = s.population.length →
      Lib.IntoSelectIter.next u s = .yield (f, v) s' →
      s'.fitnesses.length = s'.population.length ∧
      (f, v) ∈ s.fitnesses.zip s.population ∧
      ∃ i, s'.fitnesses.zip s'.population =
        swapRemove (s.fitnesses.zip s.population) i) := by
  refine ⟨?_, ?_, ?_, ?_, ?_⟩
  · intro f v s h
    simp [Lib.unchecked_push, h]
  · intro f v s s' h hok
    unfold Lib.push at hok
    by_cases h0 : 0 ≤ f
    · rw [if_pos h0] at hok
      by_cases h1 : isFiniteF (s.total_fitness + f) = true
      · rw [if_pos h1] at hok
        injection hok with hok1
        rw [← hok1]
        simp [Lib.unchecked_push, h]
      · rw [if_neg h1] at hok
        exact absurd hok (by simp)
    · rw [if_neg h0] at hok
      exact absurd hok (by simp)
  · intro s
    simp [Lib.clear]
  · intro pairs
    rw [from_iter_eq]
    simp
  · intro u s s' f v hlen hnext
    obtain ⟨i, hscan, hf, hv, hs⟩ := Lib.intoNext_inv hnext
    have hne : s.fitnesses ≠ [] := by
      intro e
      rw [e] at hf
      simp at hf
    have hpne : s.population ≠ [] := by
      intro e
      rw [e] at hv
      simp at hv
    refine ⟨?_, ?_, ⟨i, ?_⟩⟩
    · rw [hs]
      simp only []
      rw [swapRemove_length _ _ hne, swapRemove_length _ _ hpne, hlen]
    · have hz : (s.fitnesses.zip s.population).get? i = some (f, v) :=
        (List.get?_zip_eq_some _ _ _ _).mpr ⟨hf, hv⟩
      exact List.get?_mem hz
    · rw [hs]
      exact zip_swapRemove i hlen

/-- C10's theorem applied at a concrete consuming step. -/
theorem parallel_vectors_stay_aligned_app :
    (([] : List ℚ).length = ([] : List ℕ).length) ∧
    ((0 : ℚ), (7 : ℕ)) ∈ [(0 : ℚ)].zip [(7 : ℕ)] ∧
    (∃ i, ([] : List ℚ).zip ([] : List ℕ) =
      swapRemove ([(0 : ℚ)].zip [(7 : ℕ)]) i) :=
  (parallel_vectors_stay_aligned).2.2.2.2 (1/2)
    { total_fitness := 0, fitnesses := [0], population := [7] }
    { total_fitness := 0, fitnesses := [], population := [] } 0 7
    (by decide)
    (by simp [Lib.IntoSelectIter.next, scanSelect, swapRemove])
